import Mathlib

/-!
Shallow embedding of the scanning-and-matching engine of the
Shai-Hulud-Detector repository (src/detector.js): feed normalization
(`parseCompromisedList`), registry merging (`fetchAllCompromisedPackages`),
installation enumeration (`getAllInstalledPackages`) and classification
(`scanAllPackages`), plus the identifier split of the companion checker
script (`splitParse`).

Modelling conventions, chosen so that every definition evaluates inside the
kernel:
* a JavaScript `Map` is an insertion-ordered association list with
  first-match lookup (`jsGet`), update-in-place-or-append (`jsSet`) and
  `jsHas`;
* a JavaScript `Set` of feed-source names is a `Finset String` (membership
  semantics; `add` is `insert`, and a loop of `add`s is a union);
* a JavaScript value that may be `undefined` is an `Option`; in particular
  registry name keys and version keys are `Option String`, because the
  object-shaped feed branches insert records under the JS value `undefined`
  when a name or version field is absent;
* the JavaScript string operations used by the source (`trim`,
  single-character `startsWith`/`includes`, `split` on a one-character
  separator) are implemented over `String.data` character lists;
* `path.join(a, b)` is modelled as `a ++ "/" ++ b`.
-/

namespace ShaiHulud

/-- Whitespace test used by the model of the JS `String.prototype.trim`. -/
def isWSChar (c : Char) : Bool := c == ' ' || c == '\t' || c == '\r' || c == '\n'

/-- Model of the JS `trim`: drop leading and trailing whitespace. -/
def jsTrim (s : String) : String :=
  String.mk (((s.data.dropWhile isWSChar).reverse.dropWhile isWSChar).reverse)

/-- Model of the JS `startsWith` for a one-character pattern. -/
def headIs (s : String) (c : Char) : Bool :=
  match s.data with
  | [] => false
  | a :: _ => a == c

/-- Model of the JS `includes` for a one-character pattern. -/
def containsChar (s : String) (c : Char) : Bool :=
  s.data.any (fun a => a == c)

/-- Accumulator for `splitChar`: the chunk built so far is kept reversed. -/
def splitCharAux (c : Char) : List Char → List Char → List (List Char)
  | [], acc => [acc.reverse]
  | a :: rest, acc =>
    if a == c then acc.reverse :: splitCharAux c rest []
    else splitCharAux c rest (a :: acc)

/-- Model of the JS `split` on a one-character separator; like JS, the empty
string splits to `[""]`. -/
def splitChar (c : Char) (s : String) : List String :=
  (splitCharAux c s.data []).map String.mk

/-- Lookup in a JS `Map` modelled as an association list: first match wins. -/
def jsGet {K V : Type} [DecidableEq K] : List (K × V) → K → Option V
  | [], _ => none
  | (k', v) :: rest, k => if k = k' then some v else jsGet rest k

/-- Update of a JS `Map`: replace the first binding of the key in place,
keeping its position, else append a new binding at the end. -/
def jsSet {K V : Type} [DecidableEq K] : List (K × V) → K → V → List (K × V)
  | [], k, v => [(k, v)]
  | (k', v') :: rest, k, v =>
    if k = k' then (k, v) :: rest else (k', v') :: jsSet rest k v

/-- Model of the JS `Map.has`. -/
def jsHas {K V : Type} [DecidableEq K] (m : List (K × V)) (k : K) : Bool :=
  (jsGet m k).isSome

/-- Value of a registry: everything known about one package name, as built by
parseCompromisedList in detector.js — a map from version to the set of feed
sources that reported it, plus the union set of sources for the entry. -/
structure CompEntry where
  versions : List (Option String × Finset String)
  sources : Finset String
deriving DecidableEq

/-- Registry produced by the feed normalizer and the merger: a JS `Map` from
package name (possibly the JS `undefined`, hence `Option String`) to its
`CompEntry`. -/
abbrev Registry := List (Option String × CompEntry)

/-- Fresh entry inserted by `compromised.set(name, \x7bversions: new Map(),
sources: new Set()\x7d)` in detector.js. -/
def emptyEntry : CompEntry := ⟨[], ∅⟩

/-- Shared body of every insertion site of parseCompromisedList (detector.js
lines 384-393, 403-411, 419-427 and 433-441): create the entry if the name is
new, create the version slot if the version is new, then add the feed name to
the version source set and to the entry source set. -/
def insertRecord (reg : Registry) (name version : Option String) (src : String) :
    Registry :=
  let entry := (jsGet reg name).getD emptyEntry
  let vsrcs := (jsGet entry.versions version).getD ∅
  jsSet reg name
    { versions := jsSet entry.versions version (insert src vsrcs),
      sources := insert src entry.sources }

/-- Separator class of the line pattern at detector.js line 398, the regex
characters `:` and `@`. -/
def isSepChar (c : Char) : Bool := c == ':' || c == '@'

/-- Split a character list at the first `:` or `@`, returning the parts
before and after it; `none` when no separator occurs. The greedy regex
fragment matching the name cannot contain a separator, so the regex engine
also cuts at the first separator. -/
def splitFirstSep : List Char → Option (List Char × List Char)
  | [] => none
  | c :: cs =>
    if isSepChar c then some ([], cs)
    else
      match splitFirstSep cs with
      | some (pre, post) => some (c :: pre, post)
      | none => none

/-- Model of the regex match at detector.js line 398: the name part before
the first `:`/`@` and the version part after it must both be non-empty,
otherwise the line does not match. A line whose first character is a
separator therefore never matches. -/
def parseLine (line : String) : Option (String × String) :=
  match splitFirstSep line.data with
  | some (pre, post) =>
    if pre = [] ∨ post = [] then none
    else some (String.mk pre, String.mk post)
  | none => none

/-- Processing of one line of a text feed, detector.js lines 374-413: trim;
skip blank lines, lines starting with `#` and lines starting with `|`; parse
pipe-delimited rows by splitting on `|`, trimming cells, dropping empty
cells and taking the first two cells unless they read `Package`/`Version`;
parse the remaining lines with the `name` separator `version` pattern. -/
def processLine (src : String) (reg : Registry) (rawLine : String) : Registry :=
  let line := jsTrim rawLine
  if line = "" then reg
  else if headIs line '#' then reg
  else if headIs line '|' then reg
  else if containsChar line '|' then
    match ((splitChar '|' line).map jsTrim).filter (fun p => p ≠ "") with
    | name :: version :: _ =>
      if name ≠ "Package" ∧ version ≠ "Version" then
        insertRecord reg (some name) (some version) src
      else reg
    | _ => reg
  else
    match parseLine line with
    | some (n, v) => insertRecord reg (some (jsTrim n)) (some (jsTrim v)) src
    | none => reg

/-- Record of the structured feed shapes: the fields detector.js reads from
one element of `data.packages` or of a bare array (`name`, `package`,
`version`), each possibly absent. -/
structure FeedRec where
  name : Option String
  package : Option String
  version : Option String
deriving DecidableEq

/-- Feed document after the `JSON.parse`-or-raw-text step of
fetchAllCompromisedPackages: raw text, an object with a `packages` array, a
bare array, or any other value (including objects of other shapes and JSON
`null`, whose processing inside the per-feed `try` contributes nothing). -/
inductive FeedDoc where
  | text (s : String)
  | withPackages (packages : List FeedRec)
  | arrayDoc (recs : List FeedRec)
  | other
deriving DecidableEq

/-- Model of the JS `a || b` over possibly-undefined strings: the empty
string is falsy and falls through to `b`. -/
def jsOr (a b : Option String) : Option String :=
  match a with
  | some s => if s = "" then b else some s
  | none => b

/-- Model of parseCompromisedList (detector.js lines 369-447): text feeds are
processed line by line; an object with a `packages` array inserts one record
per element keyed by `name || package`; a bare array inserts one record per
element keyed by `package || name`; anything else contributes nothing. -/
def parseCompromisedList (data : FeedDoc) (sourceName : String) : Registry :=
  match data with
  | .text s => (splitChar '\n' s).foldl (processLine sourceName) []
  | .withPackages recs =>
    recs.foldl (fun reg r => insertRecord reg (jsOr r.name r.package) r.version sourceName) []
  | .arrayDoc recs =>
    recs.foldl (fun reg r => insertRecord reg (jsOr r.package r.name) r.version sourceName) []
  | .other => []

/-- Model of the identifier split of the companion checker script
(check-packages.js region, lines 167-175 of the combined source):
`pkgStr.split(\x27@\x27)` destructured into its first two pieces, each `undefined`
when absent. -/
def splitParse (pkgStr : String) : Option String × Option String :=
  match splitChar '@' pkgStr with
  | [] => (none, none)
  | [n] => (some n, none)
  | n :: v :: _ => (some n, some v)

/-- Inner loop body of the merge step of fetchAllCompromisedPackages
(detector.js lines 476-484): for one `(version, sources)` pair of the feed
entry, create the version slot if missing, then add every source to the
version slot and to the entry source set. -/
def mergeVersionStep (e : CompEntry) (vs : Option String × Finset String) : CompEntry :=
  { versions := jsSet e.versions vs.1 ((jsGet e.versions vs.1).getD ∅ ∪ vs.2),
    sources := e.sources ∪ vs.2 }

/-- Merge of one feed entry into an accumulator entry: fold of
`mergeVersionStep` over the feed entry versions. -/
def mergeEntry (existing pkgData : CompEntry) : CompEntry :=
  pkgData.versions.foldl mergeVersionStep existing

/-- Outer loop body of the merge step of fetchAllCompromisedPackages
(detector.js lines 470-485): create the accumulator entry if the name is
new, then merge the feed entry into it. -/
def mergeNameStep (acc : Registry) (np : Option String × CompEntry) : Registry :=
  jsSet acc np.1 (mergeEntry ((jsGet acc np.1).getD emptyEntry) np.2)

/-- Merge of one partial registry (one normalized feed) into the accumulated
registry, as done per feed by fetchAllCompromisedPackages. -/
def mergeInto (allCompromised sourceCompromised : Registry) : Registry :=
  sourceCompromised.foldl mergeNameStep allCompromised

/-- Fold of the merge step over a list of partial registries, starting from
the empty accumulator, in list order. -/
def mergeAll (parts : List Registry) : Registry := parts.foldl mergeInto []

/-- Model of fetchAllCompromisedPackages (detector.js lines 449-495) after
the network layer: each feed document is normalized with
parseCompromisedList under its source name and merged into the accumulator
in feed order. -/
def fetchAllCompromisedPackages (feeds : List (FeedDoc × String)) : Registry :=
  feeds.foldl (fun acc f => mergeInto acc (parseCompromisedList f.1 f.2)) []

/-- Value stored by getAllInstalledPackages for one discovered package: the
`version` field of its manifest (possibly absent, the JS `undefined`) and
its filesystem path. -/
structure PkgInfo where
  version : Option String
  path : String
deriving DecidableEq

mutual
/-- Directory entry of a node_modules-style container, as probed by
getAllInstalledPackages: a non-directory entry (skipped), or a directory
with its name, its `package.json` state (`none`: no manifest file;
`some (Except.error ())`: the manifest exists but `JSON.parse` or the field
access throws; `some (Except.ok v)`: the manifest parses and its `version`
field is `v`), its nested `node_modules` contents (a missing nested
directory behaves exactly like an empty one, so both are `nil`), and its
child directory entries (read only when the name marks a scope). -/
inductive NmEntry where
  | file (name : String)
  | dir (name : String) (manifest : Option (Except Unit (Option String)))
        (nested : NmForest) (children : NmForest)

/-- List of directory entries, as its own inductive so that the walk can
recurse structurally. -/
inductive NmForest where
  | nil
  | cons (e : NmEntry) (rest : NmForest)
end

/-- Conversion from Lean lists for readable concrete trees. -/
def NmForest.ofList : List NmEntry → NmForest
  | [] => NmForest.nil
  | e :: rest => NmForest.cons e (NmForest.ofList rest)

/-- Map from package name to its first discovered install, as accumulated by
getAllInstalledPackages. -/
abbrev SMap := List (String × PkgInfo)

mutual
/-- Loop of getAllInstalledPackages (detector.js lines 514-571) over the
entries of one directory, threading the scanned map left to right. When
`mode` is `some scope` the entries are the children of a scope directory and
package names are `scope ++ "/" ++ name`. -/
def walk (mode : Option String) (base : String) (scanned : SMap) : NmForest → SMap
  | NmForest.nil => scanned
  | NmForest.cons e rest => walk mode base (walkEntry mode base scanned e) rest
termination_by structural f => f

/-- Processing of one directory entry by getAllInstalledPackages: skip
non-directories; descend one level into a scope directory (name starting
with `@`); for a package directory, when a manifest file exists and the name
is not already in the scanned map, parse the manifest (on failure skip the
entry entirely), record `(name, version, path)`, and recurse into the nested
node_modules. A name already scanned is skipped together with its nested
tree, and no record is ever overwritten. -/
def walkEntry (mode : Option String) (base : String) (scanned : SMap) : NmEntry → SMap
  | NmEntry.file _ => scanned
  | NmEntry.dir name manifest nested children =>
    match mode with
    | none =>
      if headIs name '@' then
        walk (some name) (base ++ "/" ++ name) scanned children
      else
        match manifest with
        | none => scanned
        | some j =>
          if jsHas scanned name then scanned
          else
            match j with
            | Except.error _ => scanned
            | Except.ok v =>
              walk none (base ++ "/" ++ name ++ "/node_modules")
                (jsSet scanned name ⟨v, base ++ "/" ++ name⟩) nested
    | some scope =>
      match manifest with
      | none => scanned
      | some j =>
        if jsHas scanned (scope ++ "/" ++ name) then scanned
        else
          match j with
          | Except.error _ => scanned
          | Except.ok v =>
            walk none (base ++ "/" ++ name ++ "/node_modules")
              (jsSet scanned (scope ++ "/" ++ name) ⟨v, base ++ "/" ++ name⟩) nested
termination_by structural e => e
end

/-- Model of getAllInstalledPackages (detector.js lines 506-577): walk the
node_modules tree rooted at `nodeModulesPath`, extending the accumulator
`scanned` (a missing root directory behaves like an empty tree). -/
def getAllInstalledPackages (nodeModulesPath : String) (tree : NmForest)
    (scanned : SMap) : SMap :=
  walk none nodeModulesPath scanned tree

/-- Element of `results.compromised` in scanAllPackages, with the fields of
the pushed object (detector.js lines 604-611). -/
structure CompResult where
  name : String
  installedVersion : Option String
  compromisedVersions : List (Option String)
  sources : Finset String
  allSources : Finset String
  path : String
deriving DecidableEq

/-- Element of `results.suspicious` in scanAllPackages, with the fields of
the pushed object (detector.js lines 614-620). -/
structure SuspResult where
  name : String
  installedVersion : Option String
  compromisedVersions : List (Option String)
  sources : Finset String
  path : String
deriving DecidableEq

/-- Result record of scanAllPackages. -/
structure ScanResults where
  compromised : List CompResult
  suspicious : List SuspResult
  safe : Nat
  totalScanned : Nat
deriving DecidableEq

/-- Loop body of scanAllPackages (detector.js lines 595-625) for one
installed package: no registry entry means safe; an entry whose version map
holds the installed version yields a compromised record with the full known
version list, the version-specific sources and the entry sources; an entry
without the installed version yields a suspicious record with the full known
version list and the entry sources. -/
def classifyStep (compromisedList : Registry) (results : ScanResults)
    (p : String × PkgInfo) : ScanResults :=
  match jsGet compromisedList (some p.1) with
  | none => { results with safe := results.safe + 1 }
  | some compromisedData =>
    let allVersions := compromisedData.versions.map Prod.fst
    match jsGet compromisedData.versions p.2.version with
    | some sources =>
      { results with
          compromised := results.compromised ++
            [⟨p.1, p.2.version, allVersions, sources, compromisedData.sources, p.2.path⟩] }
    | none =>
      { results with
          suspicious := results.suspicious ++
            [⟨p.1, p.2.version, allVersions, compromisedData.sources, p.2.path⟩] }

/-- Classification loop of scanAllPackages over the installed map, starting
from empty result lists, zero safe count and `totalScanned` preset to the
size of the installed map. -/
def classifyAll (allPackages : SMap) (compromisedList : Registry) : ScanResults :=
  allPackages.foldl (classifyStep compromisedList) ⟨[], [], 0, allPackages.length⟩

/-- Model of scanAllPackages (detector.js lines 579-628): enumerate the
node_modules tree under the project root, then classify every discovered
package against the registry. -/
def scanAllPackages (projectRoot : String) (tree : NmForest)
    (compromisedList : Registry) : ScanResults :=
  classifyAll (getAllInstalledPackages (projectRoot ++ "/node_modules") tree []) compromisedList

/-- Presence of a name in a registry. -/
def nameHas (reg : Registry) (n : Option String) : Bool := jsHas reg n

/-- Presence of a version slot under a name in a registry. -/
def versionHas (reg : Registry) (n v : Option String) : Bool :=
  match jsGet reg n with
  | none => false
  | some e => jsHas e.versions v

/-- Source set recorded for one name and version of a registry (empty when
absent). -/
def versionSources (reg : Registry) (n v : Option String) : Finset String :=
  match jsGet reg n with
  | none => ∅
  | some e => (jsGet e.versions v).getD ∅

/-- Union of all version source sets of an entry. -/
def vsUnion (l : List (Option String × Finset String)) : Finset String :=
  l.foldr (fun p acc => p.2 ∪ acc) ∅

/-- Union of all version source sets under a name of a registry. -/
def entryVersionUnion (reg : Registry) (n : Option String) : Finset String :=
  match jsGet reg n with
  | none => ∅
  | some e => vsUnion e.versions

/-- Entry-level source set under a name of a registry (empty when absent). -/
def entrySources (reg : Registry) (n : Option String) : Finset String :=
  match jsGet reg n with
  | none => ∅
  | some e => e.sources

/-- Well-formedness that every registry representable as a JS `Map` of JS
`Map`s enjoys: no duplicate name keys, and no duplicate version keys inside
an entry. The association-list model can express states with duplicate keys
that JS cannot, so lemmas about merge lookups assume this invariant. -/
def RegistryWF (reg : Registry) : Prop :=
  (reg.map Prod.fst).Nodup ∧ ∀ p ∈ reg, (p.2.versions.map Prod.fst).Nodup

instance : DecidablePred RegistryWF := by
  intro reg
  unfold RegistryWF
  infer_instance

/-- Extensional equality of registries: same names, same version slots, same
version source sets, same entry source sets. -/
def regEquiv (R S : Registry) : Prop :=
  (∀ n, nameHas R n = nameHas S n) ∧
  (∀ n v, versionHas R n v = versionHas S n v) ∧
  (∀ n v, versionSources R n v = versionSources S n v) ∧
  (∀ n, entrySources R n = entrySources S n)

/-- Presence of a name in any registry of a list. -/
def listNameHas (l : List Registry) (n : Option String) : Bool :=
  l.any (fun r => nameHas r n)

/-- Presence of a version slot under a name in any registry of a list. -/
def listVersionHas (l : List Registry) (n v : Option String) : Bool :=
  l.any (fun r => versionHas r n v)

/-- Union over a list of registries of the source sets for one name and
version. -/
def listVersionSources (l : List Registry) (n v : Option String) : Finset String :=
  (l.map (fun r => versionSources r n v)).foldr (fun x acc => x ∪ acc) ∅

/-- Union over a list of registries of the per-version source unions for one
name. -/
def listEntryVersionUnion (l : List Registry) (n : Option String) : Finset String :=
  (l.map (fun r => entryVersionUnion r n)).foldr (fun x acc => x ∪ acc) ∅

theorem jsGet_jsSet_self {K V : Type} [DecidableEq K] (m : List (K × V)) (k : K) (v : V) :
    jsGet (jsSet m k v) k = some v := by
  induction m with
  | nil => simp [jsGet, jsSet]
  | cons p rest ih =>
    obtain ⟨k', v'⟩ := p
    by_cases h : k = k' <;> simp [jsGet, jsSet, h, ih]

theorem jsGet_jsSet_ne {K V : Type} [DecidableEq K] (m : List (K × V)) {k k' : K} (v : V)
    (h : k ≠ k') : jsGet (jsSet m k' v) k = jsGet m k := by
  induction m with
  | nil => simp [jsGet, jsSet, h]
  | cons p rest ih =>
    obtain ⟨k₀, v₀⟩ := p
    by_cases h0 : k' = k₀
    · subst h0
      simp [jsGet, jsSet, h]
    · by_cases h1 : k = k₀ <;> simp [jsGet, jsSet, h0, h1, ih]

theorem jsGet_eq_none_of_not_mem {K V : Type} [DecidableEq K] {m : List (K × V)} {k : K}
    (h : k ∉ m.map Prod.fst) : jsGet m k = none := by
  induction m with
  | nil => rfl
  | cons p rest ih =>
    obtain ⟨k₀, v₀⟩ := p
    simp only [List.map_cons, List.mem_cons] at h
    push_neg at h
    simp [jsGet, h.1, ih h.2]

theorem jsGet_append_some {K V : Type} [DecidableEq K] {m : List (K × V)} {k : K} {v : V}
    (t : List (K × V)) (h : jsGet m k = some v) : jsGet (m ++ t) k = some v := by
  induction m with
  | nil => simp [jsGet] at h
  | cons p rest ih =>
    obtain ⟨k₀, v₀⟩ := p
    by_cases h0 : k = k₀
    · simp only [jsGet, if_pos h0] at h
      simp [jsGet, h0, h]
    · simp only [jsGet, if_neg h0] at h
      simp [jsGet, h0, ih h]

theorem jsSet_eq_append {K V : Type} [DecidableEq K] {m : List (K × V)} {k : K}
    (v : V) (h : jsGet m k = none) : jsSet m k v = m ++ [(k, v)] := by
  induction m with
  | nil => rfl
  | cons p rest ih =>
    obtain ⟨k₀, v₀⟩ := p
    by_cases h0 : k = k₀
    · simp [jsGet, h0] at h
    · simp only [jsGet, if_neg h0] at h
      simp [jsSet, h0, ih h]

theorem mergeVersions_get (l : List (Option String × Finset String)) :
    ∀ (e : CompEntry) (v : Option String), (l.map Prod.fst).Nodup →
      (jsGet (l.foldl mergeVersionStep e).versions v).getD ∅ =
        (jsGet e.versions v).getD ∅ ∪ (jsGet l v).getD ∅ := by
  induction l with
  | nil =>
    intro e v _
    simp [jsGet]
  | cons p rest ih =>
    intro e v hnd
    obtain ⟨v₀, s₀⟩ := p
    simp only [List.map_cons, List.nodup_cons] at hnd
    obtain ⟨hnm, hnd'⟩ := hnd
    rw [List.foldl_cons, ih _ v hnd']
    by_cases h : v = v₀
    · subst h
      have h1 : jsGet rest v = none := jsGet_eq_none_of_not_mem hnm
      simp [mergeVersionStep, jsGet_jsSet_self, jsGet, h1]
    · simp [mergeVersionStep, jsGet_jsSet_ne _ _ h, jsGet, h]

theorem mergeVersions_has (l : List (Option String × Finset String)) :
    ∀ (e : CompEntry) (v : Option String),
      jsHas (l.foldl mergeVersionStep e).versions v = (jsHas e.versions v || jsHas l v) := by
  induction l with
  | nil =>
    intro e v
    simp [jsHas, jsGet]
  | cons p rest ih =>
    intro e v
    obtain ⟨v₀, s₀⟩ := p
    rw [List.foldl_cons, ih]
    by_cases h : v = v₀
    · subst h
      simp [mergeVersionStep, jsHas, jsGet_jsSet_self, jsGet]
    · simp [mergeVersionStep, jsHas, jsGet_jsSet_ne _ _ h, jsGet, h]

theorem mergeVersions_sources (l : List (Option String × Finset String)) :
    ∀ e : CompEntry, (l.foldl mergeVersionStep e).sources = e.sources ∪ vsUnion l := by
  induction l with
  | nil =>
    intro e
    simp [vsUnion]
  | cons p rest ih =>
    intro e
    rw [List.foldl_cons, ih]
    simp [mergeVersionStep, vsUnion, Finset.union_assoc]

theorem jsGet_mergeNameStep (a : Registry) (n₀ : Option String) (pd₀ : CompEntry)
    (n : Option String) :
    jsGet (mergeNameStep a (n₀, pd₀)) n =
      if n = n₀ then some (mergeEntry ((jsGet a n₀).getD emptyEntry) pd₀) else jsGet a n := by
  by_cases h : n = n₀
  · subst h
    simp [mergeNameStep, jsGet_jsSet_self]
  · simp [mergeNameStep, jsGet_jsSet_ne _ _ h, h]

theorem nameHas_mergeNameStep (a : Registry) (n₀ : Option String) (pd₀ : CompEntry)
    (n : Option String) :
    nameHas (mergeNameStep a (n₀, pd₀)) n = (decide (n = n₀) || nameHas a n) := by
  unfold nameHas jsHas
  rw [jsGet_mergeNameStep]
  by_cases h : n = n₀ <;> simp [h]

theorem versionHas_mergeNameStep_self (a : Registry) (n₀ : Option String) (pd₀ : CompEntry)
    (v : Option String) :
    versionHas (mergeNameStep a (n₀, pd₀)) n₀ v = (versionHas a n₀ v || jsHas pd₀.versions v) := by
  have h : versionHas (mergeNameStep a (n₀, pd₀)) n₀ v =
      jsHas (mergeEntry ((jsGet a n₀).getD emptyEntry) pd₀).versions v := by
    unfold versionHas
    rw [jsGet_mergeNameStep, if_pos rfl]
  rw [h]
  unfold mergeEntry
  rw [mergeVersions_has]
  cases hg : jsGet a n₀ <;> simp [versionHas, hg, emptyEntry, jsHas, jsGet]

theorem versionSources_mergeNameStep_self (a : Registry) (n₀ : Option String) (pd₀ : CompEntry)
    (v : Option String) (hnd : (pd₀.versions.map Prod.fst).Nodup) :
    versionSources (mergeNameStep a (n₀, pd₀)) n₀ v =
      versionSources a n₀ v ∪ (jsGet pd₀.versions v).getD ∅ := by
  have h : versionSources (mergeNameStep a (n₀, pd₀)) n₀ v =
      (jsGet (mergeEntry ((jsGet a n₀).getD emptyEntry) pd₀).versions v).getD ∅ := by
    unfold versionSources
    rw [jsGet_mergeNameStep, if_pos rfl]
  rw [h]
  unfold mergeEntry
  rw [mergeVersions_get _ _ _ hnd]
  cases hg : jsGet a n₀ <;> simp [versionSources, hg, emptyEntry, jsGet]

theorem entrySources_mergeNameStep_self (a : Registry) (n₀ : Option String) (pd₀ : CompEntry) :
    entrySources (mergeNameStep a (n₀, pd₀)) n₀ = entrySources a n₀ ∪ vsUnion pd₀.versions := by
  have h : entrySources (mergeNameStep a (n₀, pd₀)) n₀ =
      (mergeEntry ((jsGet a n₀).getD emptyEntry) pd₀).sources := by
    unfold entrySources
    rw [jsGet_mergeNameStep, if_pos rfl]
  rw [h]
  unfold mergeEntry
  rw [mergeVersions_sources]
  cases hg : jsGet a n₀ <;> simp [entrySources, hg, emptyEntry]

theorem versionHas_mergeNameStep_ne (a : Registry) (n₀ : Option String) (pd₀ : CompEntry)
    (n v : Option String) (h : n ≠ n₀) :
    versionHas (mergeNameStep a (n₀, pd₀)) n v = versionHas a n v := by
  unfold versionHas
  rw [jsGet_mergeNameStep, if_neg h]

theorem versionSources_mergeNameStep_ne (a : Registry) (n₀ : Option String) (pd₀ : CompEntry)
    (n v : Option String) (h : n ≠ n₀) :
    versionSources (mergeNameStep a (n₀, pd₀)) n v = versionSources a n v := by
  unfold versionSources
  rw [jsGet_mergeNameStep, if_neg h]

theorem entrySources_mergeNameStep_ne (a : Registry) (n₀ : Option String) (pd₀ : CompEntry)
    (n : Option String) (h : n ≠ n₀) :
    entrySources (mergeNameStep a (n₀, pd₀)) n = entrySources a n := by
  unfold entrySources
  rw [jsGet_mergeNameStep, if_neg h]

theorem mergeInto_nameHas (p : Registry) :
    ∀ (a : Registry) (n : Option String),
      nameHas (mergeInto a p) n = (nameHas a n || nameHas p n) := by
  induction p with
  | nil =>
    intro a n
    simp [mergeInto, nameHas, jsHas, jsGet]
  | cons np rest ih =>
    intro a n
    obtain ⟨n₀, pd₀⟩ := np
    have hstep : mergeInto a ((n₀, pd₀) :: rest) = mergeInto (mergeNameStep a (n₀, pd₀)) rest := rfl
    rw [hstep, ih, nameHas_mergeNameStep]
    by_cases h : n = n₀
    · subst h
      simp [nameHas, jsHas, jsGet]
    · simp [nameHas, jsHas, jsGet, h]

theorem mergeInto_versionHas (p : Registry) :
    ∀ (a : Registry) (n v : Option String), (p.map Prod.fst).Nodup →
      versionHas (mergeInto a p) n v = (versionHas a n v || versionHas p n v) := by
  induction p with
  | nil =>
    intro a n v _
    simp [mergeInto, versionHas, jsGet]
  | cons np rest ih =>
    intro a n v hnd
    obtain ⟨n₀, pd₀⟩ := np
    simp only [List.map_cons, List.nodup_cons] at hnd
    obtain ⟨hnm, hnd'⟩ := hnd
    have hstep : mergeInto a ((n₀, pd₀) :: rest) = mergeInto (mergeNameStep a (n₀, pd₀)) rest := rfl
    rw [hstep, ih _ _ _ hnd']
    by_cases h : n = n₀
    · subst h
      have h1 : jsGet rest n = none := jsGet_eq_none_of_not_mem hnm
      rw [versionHas_mergeNameStep_self]
      simp [versionHas, jsGet, h1, Bool.or_assoc]
    · rw [versionHas_mergeNameStep_ne _ _ _ _ _ h]
      simp [versionHas, jsGet, h]

theorem mergeInto_versionSources (p : Registry) :
    ∀ (a : Registry) (n v : Option String), RegistryWF p →
      versionSources (mergeInto a p) n v = versionSources a n v ∪ versionSources p n v := by
  induction p with
  | nil =>
    intro a n v _
    simp [mergeInto, versionSources, jsGet]
  | cons np rest ih =>
    intro a n v hwf
    obtain ⟨n₀, pd₀⟩ := np
    obtain ⟨hnd, hinner⟩ := hwf
    simp only [List.map_cons, List.nodup_cons] at hnd
    obtain ⟨hnm, hnd'⟩ := hnd
    have hwf' : RegistryWF rest :=
      ⟨hnd', fun q hq => hinner q (List.mem_cons_of_mem _ hq)⟩
    have hpd : (pd₀.versions.map Prod.fst).Nodup :=
      hinner (n₀, pd₀) (List.mem_cons_self _ _)
    have hstep : mergeInto a ((n₀, pd₀) :: rest) = mergeInto (mergeNameStep a (n₀, pd₀)) rest := rfl
    rw [hstep, ih _ _ _ hwf']
    by_cases h : n = n₀
    · subst h
      have h1 : jsGet rest n = none := jsGet_eq_none_of_not_mem hnm
      rw [versionSources_mergeNameStep_self _ _ _ _ hpd]
      simp [versionSources, jsGet, h1, Finset.union_assoc]
    · rw [versionSources_mergeNameStep_ne _ _ _ _ _ h]
      simp [versionSources, jsGet, h]

theorem mergeInto_entrySources (p : Registry) :
    ∀ (a : Registry) (n : Option String), (p.map Prod.fst).Nodup →
      entrySources (mergeInto a p) n = entrySources a n ∪ entryVersionUnion p n := by
  induction p with
  | nil =>
    intro a n _
    simp [mergeInto, entrySources, entryVersionUnion, jsGet]
  | cons np rest ih =>
    intro a n hnd
    obtain ⟨n₀, pd₀⟩ := np
    simp only [List.map_cons, List.nodup_cons] at hnd
    obtain ⟨hnm, hnd'⟩ := hnd
    have hstep : mergeInto a ((n₀, pd₀) :: rest) = mergeInto (mergeNameStep a (n₀, pd₀)) rest := rfl
    rw [hstep, ih _ _ hnd']
    by_cases h : n = n₀
    · subst h
      have h1 : jsGet rest n = none := jsGet_eq_none_of_not_mem hnm
      rw [entrySources_mergeNameStep_self]
      simp [entryVersionUnion, jsGet, h1, Finset.union_assoc]
    · rw [entrySources_mergeNameStep_ne _ _ _ _ h]
      simp [entryVersionUnion, jsGet, h]

theorem mergeAllFrom_nameHas (l : List Registry) :
    ∀ (a : Registry) (n : Option String),
      nameHas (l.foldl mergeInto a) n = (nameHas a n || listNameHas l n) := by
  induction l with
  | nil =>
    intro a n
    simp [listNameHas]
  | cons r rest ih =>
    intro a n
    rw [List.foldl_cons, ih, mergeInto_nameHas]
    simp [listNameHas, Bool.or_assoc]

theorem mergeAllFrom_versionHas (l : List Registry) :
    ∀ (a : Registry) (n v : Option String), (∀ r ∈ l, (r.map Prod.fst).Nodup) →
      versionHas (l.foldl mergeInto a) n v = (versionHas a n v || listVersionHas l n v) := by
  induction l with
  | nil =>
    intro a n v _
    simp [listVersionHas]
  | cons r rest ih =>
    intro a n v hnd
    rw [List.foldl_cons, ih _ _ _ (fun q hq => hnd q (List.mem_cons_of_mem _ hq)),
      mergeInto_versionHas _ _ _ _ (hnd r (List.mem_cons_self _ _))]
    simp [listVersionHas, Bool.or_assoc]

theorem mergeAllFrom_versionSources (l : List Registry) :
    ∀ (a : Registry) (n v : Option String), (∀ r ∈ l, RegistryWF r) →
      versionSources (l.foldl mergeInto a) n v =
        versionSources a n v ∪ listVersionSources l n v := by
  induction l with
  | nil =>
    intro a n v _
    simp [listVersionSources]
  | cons r rest ih =>
    intro a n v hwf
    rw [List.foldl_cons, ih _ _ _ (fun q hq => hwf q (List.mem_cons_of_mem _ hq)),
      mergeInto_versionSources _ _ _ _ (hwf r (List.mem_cons_self _ _))]
    simp [listVersionSources, Finset.union_assoc]

theorem mergeAllFrom_entrySources (l : List Registry) :
    ∀ (a : Registry) (n : Option String), (∀ r ∈ l, (r.map Prod.fst).Nodup) →
      entrySources (l.foldl mergeInto a) n =
        entrySources a n ∪ listEntryVersionUnion l n := by
  induction l with
  | nil =>
    intro a n _
    simp [listEntryVersionUnion]
  | cons r rest ih =>
    intro a n hnd
    rw [List.foldl_cons, ih _ _ (fun q hq => hnd q (List.mem_cons_of_mem _ hq)),
      mergeInto_entrySources _ _ _ (hnd r (List.mem_cons_self _ _))]
    simp [listEntryVersionUnion, Finset.union_assoc]

theorem any_perm {α : Type} (f : α → Bool) {l₁ l₂ : List α} (h : l₁.Perm l₂) :
    l₁.any f = l₂.any f := by
  induction h with
  | nil => rfl
  | cons x _ ih => simp [ih]
  | swap x y l =>
    simp only [List.any_cons, ← Bool.or_assoc]
    rw [Bool.or_comm (f y) (f x)]
  | trans _ _ ih₁ ih₂ => rw [ih₁, ih₂]

theorem foldr_union_perm {l₁ l₂ : List (Finset String)} (h : l₁.Perm l₂) :
    l₁.foldr (fun x acc => x ∪ acc) ∅ = l₂.foldr (fun x acc => x ∪ acc) ∅ := by
  induction h with
  | nil => rfl
  | cons x _ ih => simp only [List.foldr_cons, ih]
  | swap x y l =>
    simp only [List.foldr_cons, ← Finset.union_assoc]
    rw [Finset.union_comm y x]
  | trans _ _ ih₁ ih₂ => rw [ih₁, ih₂]

theorem mergeAll_nameHas (l : List Registry) (n : Option String) :
    nameHas (mergeAll l) n = listNameHas l n := by
  rw [mergeAll, mergeAllFrom_nameHas]
  simp [nameHas, jsHas, jsGet]

theorem mergeAll_versionHas (l : List Registry) (n v : Option String)
    (h : ∀ r ∈ l, (r.map Prod.fst).Nodup) :
    versionHas (mergeAll l) n v = listVersionHas l n v := by
  rw [mergeAll, mergeAllFrom_versionHas _ _ _ _ h]
  simp [versionHas, jsGet]

theorem mergeAll_versionSources (l : List Registry) (n v : Option String)
    (h : ∀ r ∈ l, RegistryWF r) :
    versionSources (mergeAll l) n v = listVersionSources l n v := by
  rw [mergeAll, mergeAllFrom_versionSources _ _ _ _ h]
  simp [versionSources, jsGet]

theorem mergeAll_entrySources (l : List Registry) (n : Option String)
    (h : ∀ r ∈ l, (r.map Prod.fst).Nodup) :
    entrySources (mergeAll l) n = entrySources [] n ∪ listEntryVersionUnion l n := by
  rw [mergeAll, mergeAllFrom_entrySources _ _ _ h]

theorem mergeAll_perm_regEquiv {l₁ l₂ : List Registry}
    (hwf : ∀ r ∈ l₁, RegistryWF r) (hperm : l₁.Perm l₂) :
    regEquiv (mergeAll l₁) (mergeAll l₂) := by
  have hwf₂ : ∀ r ∈ l₂, RegistryWF r := fun r hr => hwf r (hperm.mem_iff.mpr hr)
  have hnd₁ : ∀ r ∈ l₁, (r.map Prod.fst).Nodup := fun r hr => (hwf r hr).1
  have hnd₂ : ∀ r ∈ l₂, (r.map Prod.fst).Nodup := fun r hr => (hwf₂ r hr).1
  refine ⟨fun n => ?_, fun n v => ?_, fun n v => ?_, fun n => ?_⟩
  · rw [mergeAll_nameHas, mergeAll_nameHas]
    exact any_perm _ hperm
  · rw [mergeAll_versionHas _ _ _ hnd₁, mergeAll_versionHas _ _ _ hnd₂]
    exact any_perm _ hperm
  · rw [mergeAll_versionSources _ _ _ hwf, mergeAll_versionSources _ _ _ hwf₂]
    exact foldr_union_perm (hperm.map _)
  · rw [mergeAll_entrySources _ _ hnd₁, mergeAll_entrySources _ _ hnd₂,
      listEntryVersionUnion, listEntryVersionUnion,
      foldr_union_perm (hperm.map fun r => entryVersionUnion r n)]

theorem classifyFold_totalScanned (reg : Registry) (l : SMap) :
    ∀ init : ScanResults,
      (l.foldl (classifyStep reg) init).totalScanned = init.totalScanned := by
  induction l with
  | nil =>
    intro init
    rfl
  | cons p rest ih =>
    intro init
    rw [List.foldl_cons, ih]
    cases h : jsGet reg (some p.1) with
    | none => simp [classifyStep, h]
    | some cd => cases h2 : jsGet cd.versions p.2.version <;> simp [classifyStep, h, h2]

theorem classifyFold_counts (reg : Registry) (l : SMap) :
    ∀ init : ScanResults,
      (l.foldl (classifyStep reg) init).compromised.length +
        (l.foldl (classifyStep reg) init).suspicious.length +
        (l.foldl (classifyStep reg) init).safe =
      init.compromised.length + init.suspicious.length + init.safe + l.length := by
  induction l with
  | nil =>
    intro init
    simp
  | cons p rest ih =>
    intro init
    rw [List.foldl_cons, ih]
    cases h : jsGet reg (some p.1) with
    | none =>
      simp only [classifyStep, h, List.length_cons]
      omega
    | some cd =>
      cases h2 : jsGet cd.versions p.2.version <;>
        simp [classifyStep, h, h2] <;>
        omega

theorem classifyFold_comp_mono (reg : Registry) (l : SMap) :
    ∀ (init : ScanResults) (r : CompResult), r ∈ init.compromised →
      r ∈ (l.foldl (classifyStep reg) init).compromised := by
  induction l with
  | nil =>
    intro init r h
    exact h
  | cons p rest ih =>
    intro init r h
    rw [List.foldl_cons]
    apply ih
    cases hg : jsGet reg (some p.1) with
    | none => simpa [classifyStep, hg] using h
    | some cd =>
      cases h2 : jsGet cd.versions p.2.version with
      | none => simpa [classifyStep, hg, h2] using h
      | some srcs =>
        simp only [classifyStep, hg, h2, List.mem_append]
        exact Or.inl h

theorem classifyFold_susp_mono (reg : Registry) (l : SMap) :
    ∀ (init : ScanResults) (r : SuspResult), r ∈ init.suspicious →
      r ∈ (l.foldl (classifyStep reg) init).suspicious := by
  induction l with
  | nil =>
    intro init r h
    exact h
  | cons p rest ih =>
    intro init r h
    rw [List.foldl_cons]
    apply ih
    cases hg : jsGet reg (some p.1) with
    | none => simpa [classifyStep, hg] using h
    | some cd =>
      cases h2 : jsGet cd.versions p.2.version with
      | some srcs => simpa [classifyStep, hg, h2] using h
      | none =>
        simp only [classifyStep, hg, h2, List.mem_append]
        exact Or.inl h

theorem classifyFold_comp_mem (reg : Registry) (l : SMap) :
    ∀ (init : ScanResults) (name : String) (info : PkgInfo) (entry : CompEntry)
      (srcs : Finset String),
      (name, info) ∈ l →
      jsGet reg (some name) = some entry →
      jsGet entry.versions info.version = some srcs →
      (⟨name, info.version, entry.versions.map Prod.fst, srcs, entry.sources, info.path⟩ :
          CompResult) ∈ (l.foldl (classifyStep reg) init).compromised := by
  induction l with
  | nil =>
    intro _ _ _ _ _ h
    cases h
  | cons p rest ih =>
    intro init name info entry srcs hmem hreg hver
    rw [List.foldl_cons]
    rcases List.mem_cons.mp hmem with heq | hmem'
    · subst heq
      apply classifyFold_comp_mono
      simp [classifyStep, hreg, hver]
    · exact ih _ _ _ _ _ hmem' hreg hver

theorem classifyFold_susp_mem (reg : Registry) (l : SMap) :
    ∀ (init : ScanResults) (name : String) (info : PkgInfo) (entry : CompEntry),
      (name, info) ∈ l →
      jsGet reg (some name) = some entry →
      jsGet entry.versions info.version = none →
      (⟨name, info.version, entry.versions.map Prod.fst, entry.sources, info.path⟩ :
          SuspResult) ∈ (l.foldl (classifyStep reg) init).suspicious := by
  induction l with
  | nil =>
    intro _ _ _ _ h
    cases h
  | cons p rest ih =>
    intro init name info entry hmem hreg hver
    rw [List.foldl_cons]
    rcases List.mem_cons.mp hmem with heq | hmem'
    · subst heq
      apply classifyFold_susp_mono
      simp [classifyStep, hreg, hver]
    · exact ih _ _ _ _ hmem' hreg hver

theorem walk_extends :
    ∀ (mode : Option String) (base : String) (scanned : SMap) (f : NmForest),
      ∃ t, walk mode base scanned f = scanned ++ t := by
  refine walk.induct
    (fun mode base scanned f => ∃ t, walk mode base scanned f = scanned ++ t)
    (fun mode base scanned e => ∃ t, walkEntry mode base scanned e = scanned ++ t)
    ?_ ?_ ?_ ?_ ?_ ?_ ?_ ?_ ?_ ?_ ?_ ?_
  · intro mode base scanned name
    exact ⟨[], by simp [walkEntry]⟩
  · intro base scanned name manifest nested children hscope ih
    obtain ⟨t, ht⟩ := ih
    exact ⟨t, by simp [walkEntry, hscope, ht]⟩
  · intro base scanned name nested children hscope
    exact ⟨[], by simp [walkEntry, hscope]⟩
  · intro base scanned name nested children hscope j hhas
    exact ⟨[], by simp [walkEntry, hscope, hhas]⟩
  · intro base scanned name nested children hscope hhas a
    exact ⟨[], by simp [walkEntry, hscope, hhas]⟩
  · intro base scanned name nested children hscope hhas v ih
    obtain ⟨t, ht⟩ := ih
    have hnone : jsGet scanned name = none := by
      cases hg : jsGet scanned name with
      | none => rfl
      | some w => exact absurd (by simp [jsHas, hg]) hhas
    refine ⟨(name, ⟨v, base ++ "/" ++ name⟩) :: t, ?_⟩
    have hset := jsSet_eq_append (⟨v, base ++ "/" ++ name⟩ : PkgInfo) hnone
    simp only [walkEntry, hscope, hhas]
    rw [ht, hset]
    simp
  · intro base scanned name nested children scope
    exact ⟨[], by simp [walkEntry]⟩
  · intro base scanned name nested children scope j hhas
    exact ⟨[], by simp [walkEntry, hhas]⟩
  · intro base scanned name nested children scope hhas a
    exact ⟨[], by simp [walkEntry, hhas]⟩
  · intro base scanned name nested children scope hhas v ih
    obtain ⟨t, ht⟩ := ih
    have hnone : jsGet scanned (scope ++ "/" ++ name) = none := by
      cases hg : jsGet scanned (scope ++ "/" ++ name) with
      | none => rfl
      | some w => exact absurd (by simp [jsHas, hg]) hhas
    refine ⟨(scope ++ "/" ++ name, ⟨v, base ++ "/" ++ name⟩) :: t, ?_⟩
    have hset := jsSet_eq_append (⟨v, base ++ "/" ++ name⟩ : PkgInfo) hnone
    simp only [walkEntry]
    rw [if_neg (by simp [hhas]), ht, hset]
    simp
  · intro mode base scanned
    exact ⟨[], by simp [walk]⟩
  · intro mode base scanned e rest ih1 ih2
    obtain ⟨t1, ht1⟩ := ih1
    obtain ⟨t2, ht2⟩ := ih2
    refine ⟨t1 ++ t2, ?_⟩
    have hcons : walk mode base scanned (NmForest.cons e rest) =
        walk mode base (walkEntry mode base scanned e) rest := by
      simp [walk]
    rw [hcons, ht2, ht1, List.append_assoc]

theorem walk_preserves (mode : Option String) (base : String) (scanned : SMap)
    (f : NmForest) (k : String) (v : PkgInfo) (h : jsGet scanned k = some v) :
    jsGet (walk mode base scanned f) k = some v := by
  obtain ⟨t, ht⟩ := walk_extends mode base scanned f
  rw [ht]
  exact jsGet_append_some t h

theorem jsGet_none_of_not_has {K V : Type} [DecidableEq K] {m : List (K × V)} {k : K}
    (h : ¬ jsHas m k = true) : jsGet m k = none := by
  cases hg : jsGet m k with
  | none => rfl
  | some w => exact absurd (by simp [jsHas, hg]) h

theorem not_mem_keys_of_jsGet_none {K V : Type} [DecidableEq K] {m : List (K × V)} {k : K}
    (h : jsGet m k = none) : k ∉ m.map Prod.fst := by
  induction m with
  | nil => simp
  | cons p rest ih =>
    obtain ⟨k₀, v₀⟩ := p
    by_cases h0 : k = k₀
    · simp [jsGet, h0] at h
    · simp only [jsGet, if_neg h0] at h
      simp [h0, ih h]

theorem nodup_keys_append_fresh {K V : Type} [DecidableEq K] {m : List (K × V)} {k : K}
    (v : V) (hnd : (m.map Prod.fst).Nodup) (h : jsGet m k = none) :
    ((m ++ [(k, v)]).map Prod.fst).Nodup := by
  rw [List.map_append]
  rw [List.nodup_append]
  refine ⟨hnd, List.nodup_singleton _, ?_⟩
  intro a ha hb
  simp only [List.map_cons, List.map_nil, List.mem_singleton] at hb
  subst hb
  exact not_mem_keys_of_jsGet_none h ha

theorem walk_nodupKeys :
    ∀ (mode : Option String) (base : String) (scanned : SMap) (f : NmForest),
      (scanned.map Prod.fst).Nodup → ((walk mode base scanned f).map Prod.fst).Nodup := by
  refine walk.induct
    (fun mode base scanned f =>
      (scanned.map Prod.fst).Nodup → ((walk mode base scanned f).map Prod.fst).Nodup)
    (fun mode base scanned e =>
      (scanned.map Prod.fst).Nodup → ((walkEntry mode base scanned e).map Prod.fst).Nodup)
    ?_ ?_ ?_ ?_ ?_ ?_ ?_ ?_ ?_ ?_ ?_ ?_
  · intro mode base scanned name h
    simpa [walkEntry] using h
  · intro base scanned name manifest nested children hscope ih h
    simpa [walkEntry, hscope] using ih h
  · intro base scanned name nested children hscope h
    simpa [walkEntry, hscope] using h
  · intro base scanned name nested children hscope j hhas h
    simpa [walkEntry, hscope, hhas] using h
  · intro base scanned name nested children hscope hhas a h
    simpa [walkEntry, hscope, hhas] using h
  · intro base scanned name nested children hscope hhas v ih h
    have hnone : jsGet scanned name = none := jsGet_none_of_not_has hhas
    simp only [walkEntry, hscope, hhas]
    apply ih
    rw [jsSet_eq_append _ hnone]
    exact nodup_keys_append_fresh _ h hnone
  · intro base scanned name nested children scope h
    simpa [walkEntry] using h
  · intro base scanned name nested children scope j hhas h
    simpa [walkEntry, hhas] using h
  · intro base scanned name nested children scope hhas a h
    simpa [walkEntry, hhas] using h
  · intro base scanned name nested children scope hhas v ih h
    have hnone : jsGet scanned (scope ++ "/" ++ name) = none := jsGet_none_of_not_has hhas
    simp only [walkEntry, hhas]
    apply ih
    rw [jsSet_eq_append _ hnone]
    exact nodup_keys_append_fresh _ h hnone
  · intro mode base scanned h
    simpa [walk] using h
  · intro mode base scanned e rest ih1 ih2 h
    have hcons : walk mode base scanned (NmForest.cons e rest) =
        walk mode base (walkEntry mode base scanned e) rest := by
      simp [walk]
    rw [hcons]
    exact ih2 (ih1 h)

/-- Installation tree of the nested-duplicate example: the container holds
`foo` at version 1.0.0, whose own nested container holds `foo` at version
0.9.0. -/
def c1tree : NmForest := NmForest.ofList
  [NmEntry.dir "foo" (some (Except.ok (some "1.0.0")))
    (NmForest.ofList
      [NmEntry.dir "foo" (some (Except.ok (some "0.9.0"))) NmForest.nil NmForest.nil])
    NmForest.nil]

/-- Installation tree with one manifest lacking a version field and one
ordinary sibling package. -/
def c9tree : NmForest := NmForest.ofList
  [NmEntry.dir "nover" (some (Except.ok none)) NmForest.nil NmForest.nil,
   NmEntry.dir "other" (some (Except.ok (some "1.0.0"))) NmForest.nil NmForest.nil]

/-- Partial registry obtained by normalizing a feed that reports pkgA at
version 1.0.0, under the source name feedA. -/
def pkgAreg1 : Registry := parseCompromisedList (FeedDoc.text "pkgA@1.0.0") "feedA"

/-- Partial registry obtained by normalizing a feed that reports pkgA at
version 1.0.0, under the source name feedB. -/
def pkgAreg2 : Registry := parseCompromisedList (FeedDoc.text "pkgA@1.0.0") "feedB"

/-- C1 counterexample. The claim asserts that getAllInstalledPackages keys
records by installPath and yields two distinct records for the tree holding
`root/containerDir/foo` at 1.0.0 with a nested copy of `foo` at 0.9.0. On the
code the map is keyed by package name and the nested copy is skipped, so
exactly one record results, not two. -/
theorem C1_counterexample :
    (getAllInstalledPackages "root/containerDir" c1tree []).length ≠ 2 ∧
    getAllInstalledPackages "root/containerDir" c1tree [] =
      [("foo", ⟨some "1.0.0", "root/containerDir/foo"⟩)] := by
  constructor
  · decide
  · decide

/-- C1 (amended): getAllInstalledPackages records one InstalledPackage per
distinct package NAME, keyed by name rather than installPath — the scanned
map never holds two records with the same name — and a nested duplicate of
an already-recorded name is skipped, so the example tree yields exactly one
record, `foo` at 1.0.0 at the outer install path. -/
theorem C1_amended_name_keyed :
    (∀ (path : String) (tree : NmForest),
      ((getAllInstalledPackages path tree []).map Prod.fst).Nodup) ∧
    getAllInstalledPackages "root/containerDir" c1tree [] =
      [("foo", ⟨some "1.0.0", "root/containerDir/foo"⟩)] := by
  constructor
  · intro path tree
    exact walk_nodupKeys none path [] tree (by simp)
  · decide

/-- C2: scanAllPackages partitions the installed set totally — for every
registry and every installed-package map the number of compromised results
plus the number of suspicious results plus the safe count equals the total
number of packages scanned, which is the size of the installed map. -/
theorem C2_partition_total :
    (∀ (installed : SMap) (reg : Registry),
      (classifyAll installed reg).compromised.length +
          (classifyAll installed reg).suspicious.length +
          (classifyAll installed reg).safe =
        (classifyAll installed reg).totalScanned ∧
      (classifyAll installed reg).totalScanned = installed.length) ∧
    (∀ (root : String) (tree : NmForest) (reg : Registry),
      (scanAllPackages root tree reg).compromised.length +
          (scanAllPackages root tree reg).suspicious.length +
          (scanAllPackages root tree reg).safe =
        (scanAllPackages root tree reg).totalScanned) := by
  have key : ∀ (installed : SMap) (reg : Registry),
      (classifyAll installed reg).compromised.length +
          (classifyAll installed reg).suspicious.length +
          (classifyAll installed reg).safe =
        (classifyAll installed reg).totalScanned ∧
      (classifyAll installed reg).totalScanned = installed.length := by
    intro installed reg
    have h1 := classifyFold_counts reg installed ⟨[], [], 0, installed.length⟩
    have h2 := classifyFold_totalScanned reg installed ⟨[], [], 0, installed.length⟩
    constructor
    · rw [classifyAll, h1, h2]
      simp
    · rw [classifyAll, h2]
  exact ⟨key, fun root tree reg => (key _ _).1⟩

/-- C3: for an installed package whose name has a registry entry, a version
listed in the entry yields a compromised record carrying the full known-bad
version list, the source set of the matched version and the entry source
set, while an unlisted version yields a suspicious record carrying the full
known-bad version list and the entry source set. -/
theorem C3_match_payload (installed : SMap) (reg : Registry) (name : String)
    (info : PkgInfo) (entry : CompEntry)
    (hmem : (name, info) ∈ installed)
    (hreg : jsGet reg (some name) = some entry) :
    (∀ srcs : Finset String, jsGet entry.versions info.version = some srcs →
      (⟨name, info.version, entry.versions.map Prod.fst, srcs, entry.sources, info.path⟩ :
          CompResult) ∈ (classifyAll installed reg).compromised) ∧
    (jsGet entry.versions info.version = none →
      (⟨name, info.version, entry.versions.map Prod.fst, entry.sources, info.path⟩ :
          SuspResult) ∈ (classifyAll installed reg).suspicious) := by
  constructor
  · intro srcs hver
    exact classifyFold_comp_mem reg installed _ _ _ _ _ hmem hreg hver
  · intro hver
    exact classifyFold_susp_mem reg installed _ _ _ _ hmem hreg hver

/-- C3 witness: concrete one-package scan in which foo at 1.0.0 is listed by
feedX, instantiating both the compromised and the suspicious branch. -/
theorem C3_match_payload_witness :
    (⟨"foo", some "1.0.0", [some "1.0.0"], {"feedX"}, {"feedX"}, "/a/foo"⟩ : CompResult) ∈
      (classifyAll [("foo", ⟨some "1.0.0", "/a/foo"⟩)]
        [(some "foo", ⟨[(some "1.0.0", {"feedX"})], {"feedX"}⟩)]).compromised ∧
    (⟨"foo", some "2.0.0", [some "1.0.0"], {"feedX"}, "/b/foo"⟩ : SuspResult) ∈
      (classifyAll [("foo", ⟨some "2.0.0", "/b/foo"⟩)]
        [(some "foo", ⟨[(some "1.0.0", {"feedX"})], {"feedX"}⟩)]).suspicious := by
  constructor
  · exact (C3_match_payload [("foo", ⟨some "1.0.0", "/a/foo"⟩)]
      [(some "foo", ⟨[(some "1.0.0", {"feedX"})], {"feedX"}⟩)]
      "foo" ⟨some "1.0.0", "/a/foo"⟩ ⟨[(some "1.0.0", {"feedX"})], {"feedX"}⟩
      (by decide) (by decide)).1 {"feedX"} (by decide)
  · exact (C3_match_payload [("foo", ⟨some "2.0.0", "/b/foo"⟩)]
      [(some "foo", ⟨[(some "1.0.0", {"feedX"})], {"feedX"}⟩)]
      "foo" ⟨some "2.0.0", "/b/foo"⟩ ⟨[(some "1.0.0", {"feedX"})], {"feedX"}⟩
      (by decide) (by decide)).2 (by decide)

/-- C4: the registry merger is order independent — the merge fold of
fetchAllCompromisedPackages equals the fold of mergeInto over the normalized
partial registries, folding any two permuted sequences of partial registries
yields extensionally identical registries (same names, same version slots,
same version source sets, same entry source sets), and merging two partials
that each report pkgA at 1.0.0 from different feeds yields one entry whose
version 1.0.0 carries a source set of size two. -/
theorem C4_merge_order_independent :
    (∀ feeds : List (FeedDoc × String),
      fetchAllCompromisedPackages feeds =
        mergeAll (feeds.map fun f => parseCompromisedList f.1 f.2)) ∧
    (∀ l₁ l₂ : List Registry, (∀ r ∈ l₁, RegistryWF r) → l₁.Perm l₂ →
      regEquiv (mergeAll l₁) (mergeAll l₂)) ∧
    ((mergeAll [pkgAreg1, pkgAreg2]).length = 1 ∧
      (versionSources (mergeAll [pkgAreg1, pkgAreg2]) (some "pkgA") (some "1.0.0")).card = 2) := by
  refine ⟨?_, ?_, ?_, ?_⟩
  · intro feeds
    rw [fetchAllCompromisedPackages, mergeAll, List.foldl_map]
  · intro l₁ l₂ hwf hperm
    exact mergeAll_perm_regEquiv hwf hperm
  · decide
  · decide

/-- C4 witness: the permutation part applied to the two concrete pkgA
partial registries, swapped. -/
theorem C4_merge_order_independent_witness :
    regEquiv (mergeAll [pkgAreg1, pkgAreg2]) (mergeAll [pkgAreg2, pkgAreg1]) :=
  C4_merge_order_independent.2.1 [pkgAreg1, pkgAreg2] [pkgAreg2, pkgAreg1]
    (by decide) (List.Perm.swap pkgAreg2 pkgAreg1 [])

theorem splitFirstSep_eq_none (l : List Char) (h : ∀ c ∈ l, isSepChar c = false) :
    splitFirstSep l = none := by
  induction l with
  | nil => rfl
  | cons c cs ih =>
    have hc : isSepChar c = false := h c (List.mem_cons_self _ _)
    have hrest := ih fun x hx => h x (List.mem_cons_of_mem _ hx)
    simp [splitFirstSep, hc, hrest]

theorem splitFirstSep_sound (l : List Char) :
    ∀ pre post, splitFirstSep l = some (pre, post) →
      (∀ c ∈ pre, isSepChar c = false) ∧
      ∃ c, isSepChar c = true ∧ l = pre ++ c :: post := by
  induction l with
  | nil =>
    intro pre post h
    cases h
  | cons c cs ih =>
    intro pre post h
    by_cases hc : isSepChar c = true
    · simp only [splitFirstSep, if_pos hc, Option.some.injEq, Prod.mk.injEq] at h
      obtain ⟨rfl, rfl⟩ := h
      exact ⟨fun x hx => absurd hx (List.not_mem_nil x), c, hc, rfl⟩
    · simp only [splitFirstSep, if_neg hc] at h
      cases hs : splitFirstSep cs with
      | none =>
        rw [hs] at h
        cases h
      | some p =>
        obtain ⟨pre', post'⟩ := p
        rw [hs] at h
        simp only [Option.some.injEq, Prod.mk.injEq] at h
        obtain ⟨h1, h2⟩ := h
        obtain ⟨hall, sep, hsep, heq⟩ := ih pre' post' hs
        subst h1
        subst h2
        refine ⟨?_, sep, hsep, ?_⟩
        · intro x hx
          rcases List.mem_cons.mp hx with rfl | hx'
          · simpa using hc
          · exact hall x hx'
        · rw [heq]
          simp

/-- Soundness of the model of the line regex: a successful parse returns a
non-empty name free of separator characters and a non-empty version, with
the input being name, then one separator, then version — hence the split
happens at the first separator occurrence. -/
theorem parseLine_sound (s : String) (n v : String) (h : parseLine s = some (n, v)) :
    n.data ≠ [] ∧ v.data ≠ [] ∧ (∀ c ∈ n.data, isSepChar c = false) ∧
      ∃ c, isSepChar c = true ∧ s.data = n.data ++ c :: v.data := by
  unfold parseLine at h
  cases hs : splitFirstSep s.data with
  | none =>
    simp [hs] at h
  | some p =>
    obtain ⟨pre, post⟩ := p
    simp only [hs] at h
    by_cases hemp : pre = [] ∨ post = []
    · rw [if_pos hemp] at h
      cases h
    · rw [if_neg hemp] at h
      simp only [Option.some.injEq, Prod.mk.injEq] at h
      obtain ⟨rfl, rfl⟩ := h
      push_neg at hemp
      obtain ⟨hall, sep, hsep, heq⟩ := splitFirstSep_sound s.data pre post hs
      exact ⟨hemp.1, hemp.2, hall, sep, hsep, heq⟩

theorem parseLine_none_of_head_sep (s : String) (c : Char) (cs : List Char)
    (hdata : s.data = c :: cs) (hc : isSepChar c = true) : parseLine s = none := by
  unfold parseLine
  rw [hdata]
  simp [splitFirstSep, hc]

theorem parseLine_none_of_no_sep (s : String) (h : ∀ c ∈ s.data, isSepChar c = false) :
    parseLine s = none := by
  unfold parseLine
  rw [splitFirstSep_eq_none s.data h]

/-- C5 counterexample. The claim asserts the identifier parser splits on the
last `@` that is not a leading namespace marker and supports namespaced
identifiers. On the code, the deep-scanner line pattern splits at the FIRST
`:`/`@` ("a@b@c" parses as name "a", version "b@c", not "a@b"/"c"), a
namespaced identifier fails to match at all (its record is dropped), and the
checker split destructures a namespaced identifier into an empty name and a
scope fragment as version. -/
theorem C5_counterexample :
    parseLine "a@b@c" = some ("a", "b@c") ∧
    parseLine "@scope/name@1.0.0" = none ∧
    splitParse "@scope/name@1.0.0" = (some "", some "scope/name") := by
  refine ⟨?_, ?_, ?_⟩ <;> decide

/-- C5 (amended): the identifier parser of the text feeds splits on the
FIRST `:` or `@`; a string whose first character is a separator — in
particular a namespaced identifier starting with `@` — never matches and the
record is dropped, no namespace is ever produced; a string with no separator
at all is likewise dropped; and every successful parse decomposes the input
as a separator-free non-empty name, one separator, and a non-empty
version. -/
theorem C5_amended_first_separator :
    (∀ (s : String) (c : Char) (cs : List Char), s.data = c :: cs →
      isSepChar c = true → parseLine s = none) ∧
    (∀ (s n v : String), parseLine s = some (n, v) →
      n.data ≠ [] ∧ v.data ≠ [] ∧ (∀ c ∈ n.data, isSepChar c = false) ∧
      ∃ c, isSepChar c = true ∧ s.data = n.data ++ c :: v.data) ∧
    (∀ s : String, (∀ c ∈ s.data, isSepChar c = false) → parseLine s = none) := by
  exact ⟨parseLine_none_of_head_sep, parseLine_sound, parseLine_none_of_no_sep⟩

/-- C5 witness: the amended parser behavior at concrete inputs — the
namespaced identifier is dropped, the separator-free line is dropped, and
"a@b@c" decomposes at its first separator. -/
theorem C5_amended_first_separator_witness :
    parseLine "@scope/x@1.0.0" = none ∧
    parseLine "noseparator" = none ∧
    ("a".data ≠ [] ∧ "b@c".data ≠ [] ∧ (∀ c ∈ "a".data, isSepChar c = false) ∧
      ∃ c, isSepChar c = true ∧ "a@b@c".data = "a".data ++ c :: "b@c".data) := by
  refine ⟨?_, ?_, ?_⟩
  · exact C5_amended_first_separator.1 "@scope/x@1.0.0" '@' "scope/x@1.0.0".data
      (by decide) (by decide)
  · exact C5_amended_first_separator.2.2 "noseparator" (by decide)
  · exact C5_amended_first_separator.2.1 "a@b@c" "a" "b@c" (by decide)

/-- C6 counterexample. The claim asserts every non-blank, non-comment line
containing a pipe-delimited row is parsed, skipping only header rows whose
first cell reads Package. On the code, any line whose trimmed form STARTS
with a pipe (the usual markdown table row form) is skipped outright, and a
row whose second cell reads Version is also skipped even when its first cell
is not Package. -/
theorem C6_counterexample :
    parseCompromisedList (FeedDoc.text "| foo | 1.0.0 |") "S" = [] ∧
    parseCompromisedList (FeedDoc.text "foo | Version") "S" = [] := by
  constructor
  · decide
  · decide

/-- C6 (amended): a line whose trimmed form starts with a pipe is skipped
entirely; a pipe-containing line not starting with a pipe is parsed by
splitting on pipes, trimming cells, dropping empty cells and taking the
first two cells as name and version, unless the first cell reads Package or
the second reads Version; and non-pipe lines go through the
name-separator-version pattern. -/
theorem C6_amended_pipe_rules :
    (∀ (src : String) (reg : Registry) (line : String),
      headIs (jsTrim line) '|' = true → processLine src reg line = reg) ∧
    parseCompromisedList (FeedDoc.text "foo | 1.0.0\nbar: 2.0.0") "S" =
      [(some "foo", ⟨[(some "1.0.0", {"S"})], {"S"}⟩),
       (some "bar", ⟨[(some "2.0.0", {"S"})], {"S"}⟩)] ∧
    processLine "S" [] "Package | 1.0.0" = [] ∧
    processLine "S" [] "x | Version" = [] := by
  refine ⟨?_, by decide, by decide, by decide⟩
  intro src reg line h
  unfold processLine
  by_cases h0 : jsTrim line = ""
  · simp [h0]
  · by_cases h1 : headIs (jsTrim line) '#' = true
    · simp [h0, h1]
    · simp [h0, h1, h]

/-- C6 witness: the skip rule applied to a concrete markdown table separator
row. -/
theorem C6_amended_pipe_rules_witness :
    processLine "S" [] "|---|---|" = [] :=
  C6_amended_pipe_rules.1 "S" [] "|---|---|" (by decide)

/-- C7: a feed document that is empty text, an unrecognized structure, or
unmatched text contributes zero entries, and a feed whose normalization is
empty leaves the merged registry of the remaining feeds unchanged — its
presence never aborts or alters the processing of the other feeds. -/
theorem C7_unrecognized_feed_isolated :
    (∀ (d : FeedDoc) (src : String) (l₁ l₂ : List (FeedDoc × String)),
      parseCompromisedList d src = [] →
      fetchAllCompromisedPackages (l₁ ++ (d, src) :: l₂) =
        fetchAllCompromisedPackages (l₁ ++ l₂)) ∧
    (∀ src, parseCompromisedList (FeedDoc.text "") src = []) ∧
    (∀ src, parseCompromisedList FeedDoc.other src = []) ∧
    (∀ src, parseCompromisedList (FeedDoc.text "some unparsable text with no separators") src = []) := by
  refine ⟨?_, fun src => rfl, fun src => rfl, fun src => rfl⟩
  intro d src l₁ l₂ h
  simp only [fetchAllCompromisedPackages, List.foldl_append, List.foldl_cons, h]
  rfl

/-- C7 witness: a run with an unrecognized middle feed merges to the same
registry as the run without it. -/
theorem C7_unrecognized_feed_isolated_witness :
    fetchAllCompromisedPackages
      [(FeedDoc.text "pkgA@1.0.0", "feedA"), (FeedDoc.other, "bad"),
       (FeedDoc.text "pkgB@2.0.0", "feedB")] =
    fetchAllCompromisedPackages
      [(FeedDoc.text "pkgA@1.0.0", "feedA"), (FeedDoc.text "pkgB@2.0.0", "feedB")] :=
  C7_unrecognized_feed_isolated.1 FeedDoc.other "bad"
    [(FeedDoc.text "pkgA@1.0.0", "feedA")] [(FeedDoc.text "pkgB@2.0.0", "feedB")] rfl

/-- C8 counterexample. The claim asserts a record with a missing version, or
an empty name, is dropped. On the code this holds only for the text shapes:
in the object shapes a version-less record is inserted with an undefined
version key, and an empty-name record falls through the `||` chain and is
inserted under the resulting (possibly undefined) key. -/
theorem C8_counterexample :
    parseCompromisedList (FeedDoc.withPackages [⟨some "foo", none, none⟩]) "S" =
      [(some "foo", ⟨[(none, {"S"})], {"S"}⟩)] ∧
    parseCompromisedList (FeedDoc.withPackages [⟨some "", none, some "1.0.0"⟩]) "S" =
      [(none, ⟨[(some "1.0.0", {"S"})], {"S"}⟩)] := by
  constructor
  · decide
  · decide

/-- C8 (amended): in the text shapes a line with no separator (hence no
version) and no pipe contributes nothing; in the object and array shapes
every record is inserted unconditionally — in particular records with a
missing version or a missing/empty name are inserted under the corresponding
undefined keys rather than dropped. -/
theorem C8_amended_drop_rules :
    (∀ (src : String) (reg : Registry) (line : String),
      containsChar (jsTrim line) '|' = false → parseLine (jsTrim line) = none →
      processLine src reg line = reg) ∧
    (∀ (src : String) (r : FeedRec),
      jsHas (parseCompromisedList (FeedDoc.withPackages [r]) src)
        (jsOr r.name r.package) = true ∧
      jsHas (parseCompromisedList (FeedDoc.arrayDoc [r]) src)
        (jsOr r.package r.name) = true) := by
  constructor
  · intro src reg line hpipe hparse
    unfold processLine
    by_cases h0 : jsTrim line = ""
    · simp [h0]
    · by_cases h1 : headIs (jsTrim line) '#' = true
      · simp [h0, h1]
      · by_cases h2 : headIs (jsTrim line) '|' = true
        · simp [h0, h1, h2]
        · simp [h0, h1, h2, hpipe, hparse]
  · intro src r
    constructor
    · show jsHas (insertRecord [] (jsOr r.name r.package) r.version src) _ = true
      simp [insertRecord, jsHas, jsGet_jsSet_self]
    · show jsHas (insertRecord [] (jsOr r.package r.name) r.version src) _ = true
      simp [insertRecord, jsHas, jsGet_jsSet_self]

/-- C8 witness: a separator-free text line contributes nothing, and an
object-shape record without a version is present in the resulting partial
registry (not dropped). -/
theorem C8_amended_drop_rules_witness :
    processLine "S" [] "recordwithnoversion" = [] ∧
    jsHas (parseCompromisedList (FeedDoc.withPackages [⟨some "foo", none, none⟩]) "S")
      (some "foo") = true := by
  constructor
  · exact C8_amended_drop_rules.1 "S" [] "recordwithnoversion" (by decide) (by decide)
  · exact (C8_amended_drop_rules.2 "S" ⟨some "foo", none, none⟩).1

/-- C9 counterexample. The claim asserts a package whose manifest parses but
lacks a version field is excluded from the installed set. On the code no
version check is made: the package is recorded with an undefined version. -/
theorem C9_counterexample :
    jsHas (getAllInstalledPackages "root/node_modules" c9tree []) "nover" = true := by
  decide

/-- C9 (amended): a leaf package whose manifest parses but lacks a version
field is still recorded in the installed set, with an absent version, and
the walk of the rest of the tree continues (the sibling is also recorded). -/
theorem C9_amended_missing_version_included :
    getAllInstalledPackages "root/node_modules" c9tree [] =
      [("nover", ⟨none, "root/node_modules/nover"⟩),
       ("other", ⟨some "1.0.0", "root/node_modules/other"⟩)] := by
  decide

/-- C10: getAllInstalledPackages extends its accumulator map monotonically —
the returned map is the accumulator followed by zero or more appended
records, so every binding present in the accumulator on entry is present and
unchanged in the result; entries are only ever added, never overwritten or
removed, which is why only the first occurrence of a name in depth-first
order is kept. -/
theorem C10_accumulator_monotone :
    (∀ (path : String) (tree : NmForest) (scanned : SMap),
      ∃ t, getAllInstalledPackages path tree scanned = scanned ++ t) ∧
    (∀ (path : String) (tree : NmForest) (scanned : SMap) (k : String) (v : PkgInfo),
      jsGet scanned k = some v →
      jsGet (getAllInstalledPackages path tree scanned) k = some v) := by
  constructor
  · intro path tree scanned
    exact walk_extends none path scanned tree
  · intro path tree scanned k v h
    exact walk_preserves none path scanned tree k v h

/-- C10 witness: a pre-existing binding survives a concrete walk that also
discovers new packages. -/
theorem C10_accumulator_monotone_witness :
    jsGet (getAllInstalledPackages "root/containerDir" c1tree
      [("keep", ⟨some "3.0.0", "/pre/keep"⟩)]) "keep" = some ⟨some "3.0.0", "/pre/keep"⟩ :=
  C10_accumulator_monotone.2 "root/containerDir" c1tree
    [("keep", ⟨some "3.0.0", "/pre/keep"⟩)] "keep" ⟨some "3.0.0", "/pre/keep"⟩ (by decide)

end ShaiHulud
